import Mathlib

/-!
Shallow embedding of `Kristories/statuses.rs` (`src/src/lib.rs`), a library that
translates between HTTP status codes and reason phrases via two lazily built,
process-wide lookup maps, together with proofs of the specification claims.

Modelling conventions:
 - Rust `String`/`&str` values are `Str := List Char`.
 - Rust `char::is_whitespace` is the Unicode `White_Space` code-point test,
   reproduced literally; `str::to_lowercase` is modelled character-wise with the
   ASCII case mapping (the case mapping relevant to the repository's data).
 - `HashMap<String, String>` is an association list with unique keys;
   `insert` replaces the value at an existing key and otherwise appends, which
   matches `HashMap::insert`'s key-level semantics (iteration order of a real
   `HashMap` is unspecified, the association list fixes one order).
 - The file read + JSON parse of `load_status_maps` is a parameter
   `source : Except StatusError (List Status)`: the parsed record list, or the
   `FileError`/`JsonError` it fails with.
 - A Rust panic (`.expect(...)`) is `Option.none` in the one-shot query layer.
 - The two `OnceLock` cells are a `CacheState` with one `Option` field per
   cell; `loaderRuns` counts executions of `load_status_maps`.
-/

set_option autoImplicit false

namespace Statuses

/-- Rust strings, modelled as lists of characters. -/
abbrev Str := List Char

/-- Model of Rust `char::is_whitespace`: the Unicode `White_Space` property,
by code point. -/
def rustIsWhitespace (c : Char) : Bool :=
  let n := c.toNat
  n == 0x09 || n == 0x0A || n == 0x0B || n == 0x0C || n == 0x0D || n == 0x20 ||
  n == 0x85 || n == 0xA0 || n == 0x1680 ||
  (decide (0x2000 ≤ n) && decide (n ≤ 0x200A)) ||
  n == 0x2028 || n == 0x2029 || n == 0x202F || n == 0x205F || n == 0x3000

/-- Character-level model of Rust `str::to_lowercase` (ASCII case mapping:
`'A'..='Z'` shift by 32, everything else unchanged). -/
def rustLowerChar (c : Char) : Char :=
  if 65 ≤ c.toNat ∧ c.toNat ≤ 90 then Char.ofNat (c.toNat + 32) else c

/-- Model of Rust `str::to_lowercase`. -/
def rustToLowercase (s : Str) : Str := s.map rustLowerChar

/-- Model of Rust `str::trim_start`. -/
def trimStart (s : Str) : Str := s.dropWhile rustIsWhitespace

/-- Model of Rust `str::trim_end`. -/
def trimEnd (s : Str) : Str := (s.reverse.dropWhile rustIsWhitespace).reverse

/-- Model of Rust `str::trim`: strip whitespace from both ends. -/
def rustTrim (s : Str) : Str := trimEnd (trimStart s)

/-- `normalize_key` from `src/src/lib.rs`: `s.trim().to_lowercase()`,
i.e. trim first, then lowercase. -/
def normalize_key (s : Str) : Str := rustToLowercase (rustTrim s)

/-- The `Status` record of `src/src/lib.rs`: one (code, message) pair. -/
structure Status where
  code : Str
  message : Str
deriving DecidableEq

/-- `StatusError` from `src/src/lib.rs`. `fileError` and `jsonError` are the
two load-time `DataError` variants; `notFound` is the query-time failure. -/
inductive StatusError where
  | notFound
  | fileError
  | jsonError
deriving DecidableEq

/-- `HashMap<String, String>`, modelled as an association list. -/
abbrev StrMap := List (Str × Str)

/-- Model of `HashMap::insert`: if the key is present, replace the stored
value (keeping the stored key); otherwise add the new binding. -/
def hmInsert (m : StrMap) (k v : Str) : StrMap :=
  if m.any (fun p => decide (p.1 = k)) then
    m.map (fun p => if p.1 = k then (p.1, v) else p)
  else m ++ [(k, v)]

/-- Model of `HashMap::get` (cloned): the value stored at the key, if any. -/
def hmGet (m : StrMap) (k : Str) : Option Str :=
  (m.find? (fun p => decide (p.1 = k))).map (fun p => p.2)

/-- Model of `HashMap::contains_key`. -/
def hmContainsKey (m : StrMap) (k : Str) : Bool :=
  m.any (fun p => decide (p.1 = k))

/-- Model of `HashMap::values` (cloned and collected). -/
def hmValues (m : StrMap) : List Str := m.map (fun p => p.2)

/-- One iteration of the record loop in `load_status_maps`: insert
`(normalize_key code -> message)` into the first map and
`(normalize_key message -> code)` into the second. -/
def insertStatus (maps : StrMap × StrMap) (status : Status) : StrMap × StrMap :=
  (hmInsert maps.1 (normalize_key status.code) status.message,
   hmInsert maps.2 (normalize_key status.message) status.code)

/-- The map-building loop of `load_status_maps`, run over the parsed records. -/
def buildMaps (statuses : List Status) : StrMap × StrMap :=
  statuses.foldl insertStatus ([], [])

/-- `load_status_maps`: the `codes.json` read and parse is modelled by the
`source` parameter (parsed records, or the read/parse error); on success the
two lookup maps are built in one pass. -/
def load_status_maps (source : Except StatusError (List Status)) :
    Except StatusError (StrMap × StrMap) :=
  match source with
  | .error e => .error e
  | .ok statuses => .ok (buildMaps statuses)

/-- Lookup core of `pub fn code`: normalize the message, consult the
message-to-code map, `NotFound` when absent. -/
def code (mtc : StrMap) (message : Str) : Except StatusError Str :=
  match hmGet mtc (normalize_key message) with
  | some v => .ok v
  | none => .error .notFound

/-- Lookup core of `pub fn message`: normalize the code, consult the
code-to-message map, `NotFound` when absent. -/
def message (ctm : StrMap) (code : Str) : Except StatusError Str :=
  match hmGet ctm (normalize_key code) with
  | some v => .ok v
  | none => .error .notFound

/-- `pub fn is_valid_code`: membership of the normalized code in the
code-to-message map. -/
def is_valid_code (ctm : StrMap) (c : Str) : Bool :=
  hmContainsKey ctm (normalize_key c)

/-- `pub fn is_valid_message`: membership of the normalized message in the
message-to-code map. -/
def is_valid_message (mtc : StrMap) (m : Str) : Bool :=
  hmContainsKey mtc (normalize_key m)

/-- `pub fn all_codes`: the values of the message-to-code map. -/
def all_codes (mtc : StrMap) : List Str := hmValues mtc

/-- `pub fn all_messages`: the values of the code-to-message map. -/
def all_messages (ctm : StrMap) : List Str := hmValues ctm

/-- `get_code_to_message` on a fresh process: run `load_status_maps` and
`.expect(...)` the result. `none` models the panic on load failure. -/
def get_code_to_message (source : Except StatusError (List Status)) :
    Option StrMap :=
  match load_status_maps source with
  | .ok maps => some maps.1
  | .error _ => none

/-- `get_message_to_code` on a fresh process: run `load_status_maps` and
`.expect(...)` the result. `none` models the panic on load failure. -/
def get_message_to_code (source : Except StatusError (List Status)) :
    Option StrMap :=
  match load_status_maps source with
  | .ok maps => some maps.2
  | .error _ => none

/-- One call to any of the six public query operations. -/
inductive Query where
  | codeQ (m : Str)
  | messageQ (c : Str)
  | isValidCodeQ (c : Str)
  | isValidMessageQ (m : Str)
  | allCodesQ
  | allMessagesQ

/-- The value a public query operation returns. -/
inductive Answer where
  | strResult (r : Except StatusError Str)
  | boolResult (b : Bool)
  | listResult (l : List Str)

/-- One public query on a fresh process with the given record source: the
triggered lazy build either succeeds, or its `.expect(...)` panics (`none`). -/
def queryOnce (source : Except StatusError (List Status)) : Query → Option Answer
  | .codeQ m => (get_message_to_code source).map (fun mtc => .strResult (code mtc m))
  | .messageQ c => (get_code_to_message source).map (fun ctm => .strResult (message ctm c))
  | .isValidCodeQ c => (get_code_to_message source).map (fun ctm => .boolResult (is_valid_code ctm c))
  | .isValidMessageQ m => (get_message_to_code source).map (fun mtc => .boolResult (is_valid_message mtc m))
  | .allCodesQ => (get_message_to_code source).map (fun mtc => .listResult (all_codes mtc))
  | .allMessagesQ => (get_code_to_message source).map (fun ctm => .listResult (all_messages ctm))

/-- The process-wide cache state: the two `OnceLock` cells
(`CODE_TO_MESSAGE`, `MESSAGE_TO_CODE`), plus a count of how many times
`load_status_maps` has executed. -/
structure CacheState where
  ctmCell : Option StrMap
  mtcCell : Option StrMap
  loaderRuns : Nat

/-- A fresh process: both `OnceLock` cells empty, no Loader run yet. -/
def initialState : CacheState := ⟨none, none, 0⟩

/-- `CODE_TO_MESSAGE.get_or_init(...)` on the success path: when the cell is
empty, run `load_status_maps`, keep the first map, drop the second. -/
def getOrInitCtm (statuses : List Status) (st : CacheState) :
    CacheState × StrMap :=
  match st.ctmCell with
  | some m => (st, m)
  | none =>
    let maps := buildMaps statuses
    ({ st with ctmCell := some maps.1, loaderRuns := st.loaderRuns + 1 }, maps.1)

/-- `MESSAGE_TO_CODE.get_or_init(...)` on the success path: when the cell is
empty, run `load_status_maps`, keep the second map, drop the first. -/
def getOrInitMtc (statuses : List Status) (st : CacheState) :
    CacheState × StrMap :=
  match st.mtcCell with
  | some m => (st, m)
  | none =>
    let maps := buildMaps statuses
    ({ st with mtcCell := some maps.2, loaderRuns := st.loaderRuns + 1 }, maps.2)

/-- One public query against the process-wide cache state (success path of the
record source, which is what the caching claims are about). -/
def runQuery (statuses : List Status) (st : CacheState) :
    Query → CacheState × Answer
  | .codeQ m => let r := getOrInitMtc statuses st; (r.1, .strResult (code r.2 m))
  | .messageQ c => let r := getOrInitCtm statuses st; (r.1, .strResult (message r.2 c))
  | .isValidCodeQ c => let r := getOrInitCtm statuses st; (r.1, .boolResult (is_valid_code r.2 c))
  | .isValidMessageQ m => let r := getOrInitMtc statuses st; (r.1, .boolResult (is_valid_message r.2 m))
  | .allCodesQ => let r := getOrInitMtc statuses st; (r.1, .listResult (all_codes r.2))
  | .allMessagesQ => let r := getOrInitCtm statuses st; (r.1, .listResult (all_messages r.2))

/-- Run a sequence of public queries, threading the process-wide state. -/
def runQueries (statuses : List Status) (st : CacheState)
    (qs : List Query) : CacheState :=
  qs.foldl (fun s q => (runQuery statuses s q).1) st

/-- Modelled from the spec (§4.1): `normalize(s)`: lowercase the string, then
trim leading/trailing whitespace. Stated for comparison with `normalize_key`,
which trims first and then lowercases. -/
def specNormalize (s : Str) : Str := rustTrim (rustToLowercase s)

/-- The keys of an association-list map (helper for stating invariants). -/
def hmKeys (m : StrMap) : List Str := m.map (fun p => p.1)

/-- Collision freedom of a record set: no two records share a normalized code
key and no two records share a normalized message key. -/
def collisionFree (statuses : List Status) : Prop :=
  (statuses.map (fun st => normalize_key st.code)).Nodup ∧
  (statuses.map (fun st => normalize_key st.message)).Nodup

/-- The single-initialization bookkeeping invariant of the cache state: the
Loader has run exactly once per initialized `OnceLock` cell. -/
def cacheConsistent (st : CacheState) : Prop :=
  st.loaderRuns = (if st.ctmCell.isSome then 1 else 0) +
    (if st.mtcCell.isSome then 1 else 0)

/-! ## Character-level lemmas -/

theorem toNat_ofNat_lowercase {n : Nat} (h1 : 97 ≤ n) (h2 : n ≤ 122) :
    (Char.ofNat n).toNat = n := by
  have hv : n.isValidChar := Or.inl (by omega)
  simp [Char.ofNat, hv, Char.ofNatAux, Char.toNat, UInt32.toNat]

theorem rustIsWhitespace_iff {c : Char} :
    rustIsWhitespace c = true ↔
      (c.toNat = 9 ∨ c.toNat = 10 ∨ c.toNat = 11 ∨ c.toNat = 12 ∨ c.toNat = 13 ∨
       c.toNat = 32 ∨ c.toNat = 133 ∨ c.toNat = 160 ∨ c.toNat = 5760 ∨
       (8192 ≤ c.toNat ∧ c.toNat ≤ 8202) ∨ c.toNat = 8232 ∨ c.toNat = 8233 ∨
       c.toNat = 8239 ∨ c.toNat = 8287 ∨ c.toNat = 12288) := by
  simp [rustIsWhitespace]
  omega

theorem rustIsWhitespace_rustLowerChar (c : Char) :
    rustIsWhitespace (rustLowerChar c) = rustIsWhitespace c := by
  unfold rustLowerChar
  by_cases h : 65 ≤ c.toNat ∧ c.toNat ≤ 90
  · rw [if_pos h]
    have ht : (Char.ofNat (c.toNat + 32)).toNat = c.toNat + 32 :=
      toNat_ofNat_lowercase (by omega) (by omega)
    have hl : rustIsWhitespace (Char.ofNat (c.toNat + 32)) = false := by
      rw [← Bool.not_eq_true, rustIsWhitespace_iff, ht]
      omega
    have hr : rustIsWhitespace c = false := by
      rw [← Bool.not_eq_true, rustIsWhitespace_iff]
      omega
    rw [hl, hr]
  · rw [if_neg h]

theorem rustLowerChar_idem (c : Char) :
    rustLowerChar (rustLowerChar c) = rustLowerChar c := by
  unfold rustLowerChar
  by_cases h : 65 ≤ c.toNat ∧ c.toNat ≤ 90
  · rw [if_pos h]
    have ht : (Char.ofNat (c.toNat + 32)).toNat = c.toNat + 32 :=
      toNat_ofNat_lowercase (by omega) (by omega)
    rw [if_neg (by rw [ht]; omega)]
  · rw [if_neg h, if_neg h]

/-! ## Lowercasing commutes with trimming -/

theorem rustToLowercase_idem (s : Str) :
    rustToLowercase (rustToLowercase s) = rustToLowercase s := by
  unfold rustToLowercase
  rw [List.map_map]
  have hf : rustLowerChar ∘ rustLowerChar = rustLowerChar :=
    funext (fun c => rustLowerChar_idem c)
  rw [hf]

theorem trimStart_rustToLowercase (s : Str) :
    trimStart (rustToLowercase s) = rustToLowercase (trimStart s) := by
  unfold trimStart rustToLowercase
  rw [List.dropWhile_map]
  have hp : rustIsWhitespace ∘ rustLowerChar = rustIsWhitespace :=
    funext (fun c => rustIsWhitespace_rustLowerChar c)
  rw [hp]

theorem trimEnd_rustToLowercase (s : Str) :
    trimEnd (rustToLowercase s) = rustToLowercase (trimEnd s) := by
  unfold trimEnd rustToLowercase
  rw [← List.map_reverse, List.dropWhile_map, ← List.map_reverse]
  have hp : rustIsWhitespace ∘ rustLowerChar = rustIsWhitespace :=
    funext (fun c => rustIsWhitespace_rustLowerChar c)
  rw [hp]

theorem rustTrim_rustToLowercase (s : Str) :
    rustTrim (rustToLowercase s) = rustToLowercase (rustTrim s) := by
  unfold rustTrim
  rw [trimStart_rustToLowercase, trimEnd_rustToLowercase]

theorem normalize_key_eq_of_lower_eq {s t : Str}
    (h : rustToLowercase s = rustToLowercase t) :
    normalize_key s = normalize_key t := by
  unfold normalize_key
  rw [← rustTrim_rustToLowercase, ← rustTrim_rustToLowercase, h]

/-! ## Trimming is idempotent -/

theorem dropWhile_dropWhile {α : Type} (p : α → Bool) (l : List α) :
    List.dropWhile p (List.dropWhile p l) = List.dropWhile p l := by
  induction l with
  | nil => rfl
  | cons x xs ih =>
    by_cases h : p x = true
    · simp only [List.dropWhile_cons, if_pos h]
      exact ih
    · simp only [List.dropWhile_cons, if_neg h]

theorem head?_dropWhile_false {α : Type} (p : α → Bool) (l : List α) (a : α)
    (h : (List.dropWhile p l).head? = some a) : p a = false := by
  induction l with
  | nil => simp [List.dropWhile] at h
  | cons x xs ih =>
    by_cases hx : p x = true
    · rw [List.dropWhile_cons, if_pos hx] at h
      exact ih h
    · rw [List.dropWhile_cons, if_neg hx] at h
      have hxa : x = a := by simpa using h
      subst hxa
      exact Bool.eq_false_iff.mpr hx

theorem trimStart_eq_self {l : Str}
    (h : ∀ a, l.head? = some a → rustIsWhitespace a = false) :
    trimStart l = l := by
  unfold trimStart
  cases l with
  | nil => rfl
  | cons x xs =>
    have hx := h x rfl
    simp only [List.dropWhile_cons, hx]
    simp

theorem trimEnd_front (l : Str) : trimEnd l <+: l := by
  unfold trimEnd
  have h := List.dropWhile_suffix (l := l.reverse) rustIsWhitespace
  have h2 : (List.dropWhile rustIsWhitespace l.reverse).reverse <+: l.reverse.reverse :=
    List.reverse_prefix.mpr h
  rwa [List.reverse_reverse] at h2

theorem head?_of_front {α : Type} {l1 l2 : List α} (h : l1 <+: l2) (a : α)
    (ha : l1.head? = some a) : l2.head? = some a := by
  obtain ⟨t, rfl⟩ := h
  cases l1 with
  | nil => simp at ha
  | cons x xs =>
    have hxa : x = a := by simpa using ha
    subst hxa
    rfl

theorem rustTrim_idem (s : Str) : rustTrim (rustTrim s) = rustTrim s := by
  unfold rustTrim
  have hhead : ∀ a, (trimEnd (trimStart s)).head? = some a →
      rustIsWhitespace a = false := by
    intro a ha
    exact head?_dropWhile_false _ _ _ (head?_of_front (trimEnd_front _) a ha)
  rw [trimStart_eq_self hhead]
  unfold trimEnd
  rw [List.reverse_reverse, dropWhile_dropWhile]

theorem normalize_key_idem (s : Str) :
    normalize_key (normalize_key s) = normalize_key s := by
  unfold normalize_key
  rw [rustTrim_rustToLowercase, rustTrim_idem, rustToLowercase_idem]

/-! ## Trimming absorbs surrounding whitespace -/

theorem trimStart_append_ws {w : Str} (l : Str)
    (hw : w.all rustIsWhitespace = true) :
    trimStart (w ++ l) = trimStart l := by
  unfold trimStart
  have h1 : List.dropWhile rustIsWhitespace w = [] :=
    List.dropWhile_eq_nil_iff.mpr (fun x hx => List.all_eq_true.mp hw x hx)
  rw [List.dropWhile_append, h1]
  simp

theorem trimEnd_append_ws {w : Str} (l : Str)
    (hw : w.all rustIsWhitespace = true) :
    trimEnd (l ++ w) = trimEnd l := by
  unfold trimEnd
  rw [List.reverse_append]
  have hw' : ∀ x ∈ w.reverse, rustIsWhitespace x = true :=
    fun x hx => List.all_eq_true.mp hw x (List.mem_reverse.mp hx)
  have h1 : List.dropWhile rustIsWhitespace w.reverse = [] :=
    List.dropWhile_eq_nil_iff.mpr hw'
  rw [List.dropWhile_append, h1]
  simp

theorem rustTrim_ws_wrap (w1 w2 x : Str) (h1 : w1.all rustIsWhitespace = true)
    (h2 : w2.all rustIsWhitespace = true) :
    rustTrim (w1 ++ x ++ w2) = rustTrim x := by
  unfold rustTrim
  rw [List.append_assoc, trimStart_append_ws _ h1]
  by_cases hx : x.all rustIsWhitespace = true
  · have hxw : ∀ a ∈ x ++ w2, rustIsWhitespace a = true := by
      intro a ha
      rcases List.mem_append.mp ha with h | h
      · exact List.all_eq_true.mp hx a h
      · exact List.all_eq_true.mp h2 a h
    have hnil : trimStart (x ++ w2) = [] := by
      unfold trimStart
      exact List.dropWhile_eq_nil_iff.mpr hxw
    have hnil2 : trimStart x = [] := by
      unfold trimStart
      exact List.dropWhile_eq_nil_iff.mpr (fun a ha => List.all_eq_true.mp hx a ha)
    rw [hnil, hnil2]
  · have hne : List.dropWhile rustIsWhitespace x ≠ [] := by
      intro hc
      exact hx (List.all_eq_true.mpr
        (fun a ha => List.dropWhile_eq_nil_iff.mp hc a ha))
    have hcond : ¬ ((List.dropWhile rustIsWhitespace x).isEmpty = true) :=
      fun hc => hne (List.isEmpty_iff.mp hc)
    have hsplit : trimStart (x ++ w2) = trimStart x ++ w2 := by
      unfold trimStart
      rw [List.dropWhile_append, if_neg hcond]
    rw [hsplit, trimEnd_append_ws _ h2]

theorem normalize_key_ws_wrap (w1 w2 x : Str)
    (h1 : w1.all rustIsWhitespace = true) (h2 : w2.all rustIsWhitespace = true) :
    normalize_key (w1 ++ x ++ w2) = normalize_key x := by
  unfold normalize_key
  rw [rustTrim_ws_wrap _ _ _ h1 h2]

/-! ## Query congruence under normalization -/

theorem code_congr (mtc : StrMap) {u v : Str}
    (h : normalize_key u = normalize_key v) : code mtc u = code mtc v := by
  unfold code
  rw [h]

theorem message_congr (ctm : StrMap) {u v : Str}
    (h : normalize_key u = normalize_key v) : message ctm u = message ctm v := by
  unfold message
  rw [h]

/-! ## Association-map lemmas -/

theorem replace_preserves_pred (k v k2 : Str) :
    ((fun p : Str × Str => decide (p.1 = k2)) ∘
      (fun p : Str × Str => if p.1 = k then (p.1, v) else p)) =
    (fun p : Str × Str => decide (p.1 = k2)) := by
  funext p
  by_cases hp : p.1 = k <;> simp [hp]

theorem hmGet_hmInsert_self (m : StrMap) (k v : Str) :
    hmGet (hmInsert m k v) k = some v := by
  unfold hmInsert hmGet
  by_cases h : m.any (fun p => decide (p.1 = k)) = true
  · rw [if_pos h, List.find?_map, replace_preserves_pred]
    obtain ⟨p0, hp0mem, hp0⟩ := List.any_eq_true.mp h
    cases hfind : m.find? (fun p => decide (p.1 = k)) with
    | none =>
      rw [List.find?_eq_none] at hfind
      exact absurd hp0 (hfind p0 hp0mem)
    | some q =>
      have hq0 := List.find?_some hfind
      have hq : q.1 = k := of_decide_eq_true hq0
      simp [hq]
  · rw [if_neg h, List.find?_append]
    have hnone : m.find? (fun p => decide (p.1 = k)) = none := by
      rw [List.find?_eq_none]
      intro x hx hcontra
      exact h (List.any_eq_true.mpr ⟨x, hx, hcontra⟩)
    rw [hnone, Option.none_or]
    simp [List.find?]

theorem hmGet_hmInsert_ne (m : StrMap) (k v k2 : Str) (hne : k2 ≠ k) :
    hmGet (hmInsert m k v) k2 = hmGet m k2 := by
  unfold hmInsert hmGet
  by_cases h : m.any (fun p => decide (p.1 = k)) = true
  · rw [if_pos h, List.find?_map, replace_preserves_pred]
    cases hfind : m.find? (fun p => decide (p.1 = k2)) with
    | none => simp
    | some q =>
      have hq0 := List.find?_some hfind
      have hq : q.1 = k2 := of_decide_eq_true hq0
      have hqk : ¬ (q.1 = k) := by
        rw [hq]
        exact hne
      simp [hqk]
  · rw [if_neg h, List.find?_append]
    have hlast : List.find? (fun p : Str × Str => decide (p.1 = k2)) [(k, v)] = none := by
      have hd : decide (k = k2) = false := decide_eq_false (fun hc => hne hc.symm)
      simp [List.find?, hd]
    rw [hlast, Option.or_none]

theorem hmContainsKey_iff_get (m : StrMap) (k : Str) :
    hmContainsKey m k = true ↔ ∃ v, hmGet m k = some v := by
  unfold hmContainsKey hmGet
  rw [List.any_eq_true]
  constructor
  · rintro ⟨p, hp, hp2⟩
    cases hfind : m.find? (fun p => decide (p.1 = k)) with
    | none =>
      rw [List.find?_eq_none] at hfind
      exact absurd hp2 (hfind p hp)
    | some q => exact ⟨q.2, rfl⟩
  · rintro ⟨v, hv⟩
    cases hfind : m.find? (fun p => decide (p.1 = k)) with
    | none => rw [hfind] at hv; simp at hv
    | some q =>
      have hqmem := List.mem_of_find?_eq_some hfind
      have hq0 := List.find?_some hfind
      exact ⟨q, hqmem, hq0⟩

theorem replace_preserves_fst (k v : Str) :
    ((fun p : Str × Str => p.1) ∘
      (fun p : Str × Str => if p.1 = k then (p.1, v) else p)) =
    (fun p : Str × Str => p.1) := by
  funext p
  by_cases hp : p.1 = k <;> simp [hp]

theorem hmKeys_hmInsert_mem {m : StrMap} {k v k2 : Str}
    (h : k2 ∈ hmKeys (hmInsert m k v)) : k2 ∈ hmKeys m ∨ k2 = k := by
  unfold hmInsert hmKeys at h
  by_cases hc : m.any (fun p => decide (p.1 = k)) = true
  · rw [if_pos hc, List.map_map, replace_preserves_fst] at h
    exact Or.inl h
  · rw [if_neg hc, List.map_append] at h
    rcases List.mem_append.mp h with h2 | h2
    · exact Or.inl h2
    · simp at h2
      exact Or.inr h2

theorem hmKeys_nodup_hmInsert (m : StrMap) (k v : Str)
    (h : (hmKeys m).Nodup) : (hmKeys (hmInsert m k v)).Nodup := by
  unfold hmInsert hmKeys at *
  by_cases hc : m.any (fun p => decide (p.1 = k)) = true
  · rw [if_pos hc, List.map_map, replace_preserves_fst]
    exact h
  · rw [if_neg hc, List.map_append, List.nodup_append]
    refine ⟨h, by simp, ?_⟩
    intro a ham hak
    have hak2 : a = k := by simpa using hak
    subst hak2
    apply hc
    rw [List.any_eq_true]
    obtain ⟨p, hp, hp2⟩ := List.mem_map.mp ham
    exact ⟨p, hp, by rw [decide_eq_true_eq]; exact hp2⟩

/-! ## Properties of the map-building loop -/

theorem foldl_insertStatus_cons (s : Status) (rest : List Status)
    (m1 m2 : StrMap) :
    (s :: rest).foldl insertStatus (m1, m2) =
      rest.foldl insertStatus
        (hmInsert m1 (normalize_key s.code) s.message,
         hmInsert m2 (normalize_key s.message) s.code) := rfl

theorem buildMaps_keys_nodup (statuses : List Status) :
    (hmKeys (buildMaps statuses).1).Nodup ∧
    (hmKeys (buildMaps statuses).2).Nodup := by
  have h : ∀ (m1 m2 : StrMap), (hmKeys m1).Nodup → (hmKeys m2).Nodup →
      (hmKeys (statuses.foldl insertStatus (m1, m2)).1).Nodup ∧
      (hmKeys (statuses.foldl insertStatus (m1, m2)).2).Nodup := by
    induction statuses with
    | nil => intro m1 m2 h1 h2; exact ⟨h1, h2⟩
    | cons s rest ih =>
      intro m1 m2 h1 h2
      rw [foldl_insertStatus_cons]
      exact ih _ _ (hmKeys_nodup_hmInsert _ _ _ h1) (hmKeys_nodup_hmInsert _ _ _ h2)
  exact h [] [] List.nodup_nil List.nodup_nil

theorem hmGet_foldl_ctm_of_not_mem (statuses : List Status) :
    ∀ (m1 m2 : StrMap) (k : Str),
      (∀ st ∈ statuses, normalize_key st.code ≠ k) →
      hmGet (statuses.foldl insertStatus (m1, m2)).1 k = hmGet m1 k := by
  induction statuses with
  | nil => intro m1 m2 k _; rfl
  | cons s rest ih =>
    intro m1 m2 k h
    rw [foldl_insertStatus_cons]
    rw [ih _ _ k (fun st hst => h st (List.mem_cons_of_mem _ hst))]
    exact hmGet_hmInsert_ne _ _ _ _ (Ne.symm (h s (List.mem_cons_self _ _)))

theorem hmGet_foldl_mtc_of_not_mem (statuses : List Status) :
    ∀ (m1 m2 : StrMap) (k : Str),
      (∀ st ∈ statuses, normalize_key st.message ≠ k) →
      hmGet (statuses.foldl insertStatus (m1, m2)).2 k = hmGet m2 k := by
  induction statuses with
  | nil => intro m1 m2 k _; rfl
  | cons s rest ih =>
    intro m1 m2 k h
    rw [foldl_insertStatus_cons]
    rw [ih _ _ k (fun st hst => h st (List.mem_cons_of_mem _ hst))]
    exact hmGet_hmInsert_ne _ _ _ _ (Ne.symm (h s (List.mem_cons_self _ _)))

theorem buildMaps_lookup (statuses : List Status) :
    ∀ (m1 m2 : StrMap) (st : Status), st ∈ statuses →
      (statuses.map (fun s => normalize_key s.code)).Nodup →
      (statuses.map (fun s => normalize_key s.message)).Nodup →
      hmGet (statuses.foldl insertStatus (m1, m2)).1 (normalize_key st.code) =
        some st.message ∧
      hmGet (statuses.foldl insertStatus (m1, m2)).2 (normalize_key st.message) =
        some st.code := by
  induction statuses with
  | nil => intro m1 m2 st h _ _; cases h
  | cons s rest ih =>
    intro m1 m2 st hmem hc hm
    rw [List.map_cons, List.nodup_cons] at hc hm
    rcases List.mem_cons.mp hmem with heq | hmem2
    · subst heq
      rw [foldl_insertStatus_cons]
      constructor
      · rw [hmGet_foldl_ctm_of_not_mem rest _ _ _
          (fun st2 hst2 hcontra => hc.1 (List.mem_map.mpr ⟨st2, hst2, hcontra⟩))]
        exact hmGet_hmInsert_self _ _ _
      · rw [hmGet_foldl_mtc_of_not_mem rest _ _ _
          (fun st2 hst2 hcontra => hm.1 (List.mem_map.mpr ⟨st2, hst2, hcontra⟩))]
        exact hmGet_hmInsert_self _ _ _
    · rw [foldl_insertStatus_cons]
      exact ih _ _ st hmem2 hc.2 hm.2

theorem hmGet_foldl_ctm_find (statuses : List Status) :
    ∀ (m1 m2 : StrMap) (k : Str),
      hmGet (statuses.foldl insertStatus (m1, m2)).1 k =
        match statuses.reverse.find?
            (fun st => decide (normalize_key st.code = k)) with
        | some st => some st.message
        | none => hmGet m1 k := by
  induction statuses with
  | nil => intro m1 m2 k; rfl
  | cons s rest ih =>
    intro m1 m2 k
    rw [foldl_insertStatus_cons, ih, List.reverse_cons, List.find?_append]
    cases hfind : rest.reverse.find? (fun st => decide (normalize_key st.code = k)) with
    | some st => rfl
    | none =>
      simp only [Option.none_or]
      by_cases hk : normalize_key s.code = k
      · have hd : decide (normalize_key s.code = k) = true := decide_eq_true hk
        simp only [List.find?, hd, cond_true]
        rw [← hk]
        exact hmGet_hmInsert_self _ _ _
      · have hd : decide (normalize_key s.code = k) = false := decide_eq_false hk
        simp only [List.find?, hd, cond_false]
        exact hmGet_hmInsert_ne _ _ _ _ (fun hc => hk hc.symm)

theorem hmGet_foldl_mtc_find (statuses : List Status) :
    ∀ (m1 m2 : StrMap) (k : Str),
      hmGet (statuses.foldl insertStatus (m1, m2)).2 k =
        match statuses.reverse.find?
            (fun st => decide (normalize_key st.message = k)) with
        | some st => some st.code
        | none => hmGet m2 k := by
  induction statuses with
  | nil => intro m1 m2 k; rfl
  | cons s rest ih =>
    intro m1 m2 k
    rw [foldl_insertStatus_cons, ih, List.reverse_cons, List.find?_append]
    cases hfind : rest.reverse.find? (fun st => decide (normalize_key st.message = k)) with
    | some st => rfl
    | none =>
      simp only [Option.none_or]
      by_cases hk : normalize_key s.message = k
      · have hd : decide (normalize_key s.message = k) = true := decide_eq_true hk
        simp only [List.find?, hd, cond_true]
        rw [← hk]
        exact hmGet_hmInsert_self _ _ _
      · have hd : decide (normalize_key s.message = k) = false := decide_eq_false hk
        simp only [List.find?, hd, cond_false]
        exact hmGet_hmInsert_ne _ _ _ _ (fun hc => hk hc.symm)

theorem buildMaps_keys_fixed (statuses : List Status) :
    ∀ (m1 m2 : StrMap),
      (∀ k ∈ hmKeys m1, normalize_key k = k) →
      (∀ k ∈ hmKeys m2, normalize_key k = k) →
      (∀ k ∈ hmKeys (statuses.foldl insertStatus (m1, m2)).1, normalize_key k = k) ∧
      (∀ k ∈ hmKeys (statuses.foldl insertStatus (m1, m2)).2, normalize_key k = k) := by
  induction statuses with
  | nil => intro m1 m2 h1 h2; exact ⟨h1, h2⟩
  | cons s rest ih =>
    intro m1 m2 h1 h2
    rw [foldl_insertStatus_cons]
    apply ih
    · intro k hk
      rcases hmKeys_hmInsert_mem hk with h | h
      · exact h1 k h
      · subst h
        exact normalize_key_idem _
    · intro k hk
      rcases hmKeys_hmInsert_mem hk with h | h
      · exact h2 k h
      · subst h
        exact normalize_key_idem _

/-! ## Cache-state lemmas -/

theorem getOrInitCtm_consistent (statuses : List Status) (st : CacheState)
    (h : cacheConsistent st) : cacheConsistent (getOrInitCtm statuses st).1 := by
  unfold cacheConsistent getOrInitCtm at *
  cases hc : st.ctmCell <;> cases hm : st.mtcCell <;>
    simp [hc, hm] at h ⊢ <;> omega

theorem getOrInitMtc_consistent (statuses : List Status) (st : CacheState)
    (h : cacheConsistent st) : cacheConsistent (getOrInitMtc statuses st).1 := by
  unfold cacheConsistent getOrInitMtc at *
  cases hc : st.ctmCell <;> cases hm : st.mtcCell <;>
    simp [hc, hm] at h ⊢ <;> omega

theorem runQuery_consistent (statuses : List Status) (st : CacheState)
    (q : Query) (h : cacheConsistent st) :
    cacheConsistent (runQuery statuses st q).1 := by
  cases q with
  | codeQ m => exact getOrInitMtc_consistent statuses st h
  | messageQ c => exact getOrInitCtm_consistent statuses st h
  | isValidCodeQ c => exact getOrInitCtm_consistent statuses st h
  | isValidMessageQ m => exact getOrInitMtc_consistent statuses st h
  | allCodesQ => exact getOrInitMtc_consistent statuses st h
  | allMessagesQ => exact getOrInitCtm_consistent statuses st h

theorem runQueries_consistent (statuses : List Status) (qs : List Query) :
    ∀ st : CacheState, cacheConsistent st →
      cacheConsistent (runQueries statuses st qs) := by
  induction qs with
  | nil => intro st h; exact h
  | cons q rest ih =>
    intro st h
    exact ih _ (runQuery_consistent statuses st q h)

theorem runQuery_ctm_stable (statuses : List Status) (st : CacheState)
    (q : Query) (m : StrMap) (h : st.ctmCell = some m) :
    (runQuery statuses st q).1.ctmCell = some m := by
  cases q <;> simp [runQuery, getOrInitCtm, getOrInitMtc, h] <;>
    cases hm : st.mtcCell <;> simp [hm, h]

theorem runQuery_mtc_stable (statuses : List Status) (st : CacheState)
    (q : Query) (m : StrMap) (h : st.mtcCell = some m) :
    (runQuery statuses st q).1.mtcCell = some m := by
  cases q <;> simp [runQuery, getOrInitCtm, getOrInitMtc, h] <;>
    cases hc : st.ctmCell <;> simp [hc, h]

theorem runQueries_ctm_stable (statuses : List Status) (qs : List Query) :
    ∀ (st : CacheState) (m : StrMap), st.ctmCell = some m →
      (runQueries statuses st qs).ctmCell = some m := by
  induction qs with
  | nil => intro st m h; exact h
  | cons q rest ih =>
    intro st m h
    exact ih _ m (runQuery_ctm_stable statuses st q m h)

theorem runQueries_mtc_stable (statuses : List Status) (qs : List Query) :
    ∀ (st : CacheState) (m : StrMap), st.mtcCell = some m →
      (runQueries statuses st qs).mtcCell = some m := by
  induction qs with
  | nil => intro st m h; exact h
  | cons q rest ih =>
    intro st m h
    exact ih _ m (runQuery_mtc_stable statuses st q m h)

/-! ## Claim theorems -/

/-- Counterexample to claim C1 as stated: when the one-time build fails with a
file read error, the triggering query (`message "200"`) panics — the model of
Rust `.expect(...)` — instead of returning a typed failure value. -/
theorem claim1_cex :
    queryOnce (Except.error StatusError.fileError) (Query.messageQ ("200".data)) =
      none := rfl

/-- Claim C1 (amended): `load_status_maps` surfaces read/parse failures as
typed `StatusError` values and never substitutes an empty mapping, but every
public query operation whose lazy build fails unwraps that result with
`.expect`, so the call aborts the process (panics) rather than returning the
typed failure to the caller. -/
theorem claim1_load_failure_panics (e : StatusError) (q : Query) :
    load_status_maps (Except.error e) = Except.error e ∧
    queryOnce (Except.error e) q = none := by
  refine ⟨rfl, ?_⟩
  cases q <;> rfl

/-- Counterexample to claim C2 as stated: on a fresh process, a `message`
query followed by a `code` query makes the Loader (`load_status_maps`) execute
twice — once per `OnceLock` cell — contradicting "it never happens that the
Loader executes a second time". -/
theorem claim2_cex :
    (runQueries [Status.mk ("200".data) ("OK".data)] initialState
      [Query.messageQ ("200".data), Query.codeQ ("OK".data)]).loaderRuns = 2 := rfl

/-- Claim C2 (amended): each of the two `OnceLock` cells is initialized at
most once and, once set, is never changed by later queries; but the Loader
runs once per cell rather than once per process: after any query sequence
from a fresh process, the number of Loader executions equals the number of
initialized cells, hence is at most two. -/
theorem claim2_loader_once_per_cell (statuses : List Status) (qs : List Query) :
    ((runQueries statuses initialState qs).loaderRuns =
      (if (runQueries statuses initialState qs).ctmCell.isSome then 1 else 0) +
      (if (runQueries statuses initialState qs).mtcCell.isSome then 1 else 0)) ∧
    (runQueries statuses initialState qs).loaderRuns ≤ 2 ∧
    (∀ (st : CacheState) (m : StrMap), st.ctmCell = some m →
      (runQueries statuses st qs).ctmCell = some m) ∧
    (∀ (st : CacheState) (m : StrMap), st.mtcCell = some m →
      (runQueries statuses st qs).mtcCell = some m) := by
  have hcons : cacheConsistent (runQueries statuses initialState qs) :=
    runQueries_consistent statuses qs initialState
      (by simp [cacheConsistent, initialState])
  have heq : (runQueries statuses initialState qs).loaderRuns =
      (if (runQueries statuses initialState qs).ctmCell.isSome then 1 else 0) +
      (if (runQueries statuses initialState qs).mtcCell.isSome then 1 else 0) := hcons
  refine ⟨heq, ?_, runQueries_ctm_stable statuses qs, runQueries_mtc_stable statuses qs⟩
  rw [heq]
  split_ifs <;> omega

/-- Witness for claim C2's amended theorem: a cell that is already set stays
set across a further query. -/
theorem claim2_witness :
    (CacheState.mk (some []) none 1).ctmCell = some [] ∧
    (runQueries [Status.mk ("200".data) ("OK".data)]
      (CacheState.mk (some []) none 1) [Query.codeQ ("OK".data)]).ctmCell =
      some [] :=
  ⟨rfl, (claim2_loader_once_per_cell [Status.mk ("200".data) ("OK".data)]
      [Query.codeQ ("OK".data)]).2.2.1 (CacheState.mk (some []) none 1) [] rfl⟩

/-- Counterexample to claim C3 as stated: two records with equal codes but
different messages make `all_codes` return the code twice — map values, unlike
keys, can duplicate. -/
theorem claim3_cex :
    ¬ (all_codes (buildMaps [Status.mk ("200".data) ("OK".data),
      Status.mk ("200".data) ("Okay".data)]).2).Nodup := by decide

/-- Claim C3 (amended): `all_codes` returns exactly the values stored in
`MessageToCode` — one element per entry, and the keys are duplicate-free, so
one element per key — and symmetrically for `all_messages`; but the returned
value list itself may contain duplicates, since distinct normalized messages
can map to equal code strings. -/
theorem claim3_all_codes_values (statuses : List Status) :
    all_codes (buildMaps statuses).2 = hmValues (buildMaps statuses).2 ∧
    all_messages (buildMaps statuses).1 = hmValues (buildMaps statuses).1 ∧
    (hmKeys (buildMaps statuses).2).Nodup ∧
    (hmKeys (buildMaps statuses).1).Nodup ∧
    (all_codes (buildMaps statuses).2).length =
      (hmKeys (buildMaps statuses).2).length ∧
    (all_messages (buildMaps statuses).1).length =
      (hmKeys (buildMaps statuses).1).length := by
  obtain ⟨h1, h2⟩ := buildMaps_keys_nodup statuses
  refine ⟨rfl, rfl, h2, h1, ?_, ?_⟩
  · simp [all_codes, hmValues, hmKeys]
  · simp [all_messages, hmValues, hmKeys]

/-- Claim C4: for a collision-free record set, the two built maps invert each
other on every record: `message record.code` returns `record.message` and
`code record.message` returns `record.code`. -/
theorem claim4_roundtrip (statuses : List Status) (h : collisionFree statuses)
    (st : Status) (hmem : st ∈ statuses) :
    message (buildMaps statuses).1 st.code = Except.ok st.message ∧
    code (buildMaps statuses).2 st.message = Except.ok st.code := by
  obtain ⟨h1, h2⟩ := buildMaps_lookup statuses [] [] st hmem h.1 h.2
  constructor
  · unfold message buildMaps
    rw [h1]
  · unfold code buildMaps
    rw [h2]

/-- Witness for claim C4 at a concrete collision-free record set. -/
theorem claim4_witness :
    collisionFree [Status.mk ("200".data) ("OK".data),
      Status.mk ("404".data) ("Not Found".data)] ∧
    Status.mk ("200".data) ("OK".data) ∈
      [Status.mk ("200".data) ("OK".data),
       Status.mk ("404".data) ("Not Found".data)] ∧
    message (buildMaps [Status.mk ("200".data) ("OK".data),
      Status.mk ("404".data) ("Not Found".data)]).1 ("200".data) =
      Except.ok ("OK".data) ∧
    code (buildMaps [Status.mk ("200".data) ("OK".data),
      Status.mk ("404".data) ("Not Found".data)]).2 ("OK".data) =
      Except.ok ("200".data) := by
  have hcf : collisionFree [Status.mk ("200".data) ("OK".data),
      Status.mk ("404".data) ("Not Found".data)] := ⟨by decide, by decide⟩
  have hmem : Status.mk ("200".data) ("OK".data) ∈
      [Status.mk ("200".data) ("OK".data),
       Status.mk ("404".data) ("Not Found".data)] := List.mem_cons_self _ _
  obtain ⟨ha, hb⟩ := claim4_roundtrip _ hcf _ hmem
  exact ⟨hcf, hmem, ha, hb⟩

/-- Claim C5: last write wins — the entry of `CodeToMessage` at any key `k` is
the message of the last record in iteration order whose normalized code is
`k` (formalized as `find?` over the reversed record list), and symmetrically
the entry of `MessageToCode` at `k` is the code of the last record whose
normalized message is `k`; in particular, when two records collide on a key,
the later one determines the stored value. -/
theorem claim5_last_write_wins (statuses : List Status) (k : Str) :
    hmGet (buildMaps statuses).1 k =
      Option.map (fun st => st.message)
        (statuses.reverse.find? (fun st => decide (normalize_key st.code = k))) ∧
    hmGet (buildMaps statuses).2 k =
      Option.map (fun st => st.code)
        (statuses.reverse.find? (fun st => decide (normalize_key st.message = k))) := by
  have h1 := hmGet_foldl_ctm_find statuses [] [] k
  have h2 := hmGet_foldl_mtc_find statuses [] [] k
  constructor
  · rw [show buildMaps statuses = statuses.foldl insertStatus ([], []) from rfl, h1]
    cases statuses.reverse.find? (fun st => decide (normalize_key st.code = k)) <;> rfl
  · rw [show buildMaps statuses = statuses.foldl insertStatus ([], []) from rfl, h2]
    cases statuses.reverse.find? (fun st => decide (normalize_key st.message = k)) <;> rfl

/-- Claim C6: for every string, `is_valid_code` is true exactly when `message`
succeeds, and `is_valid_message` is true exactly when `code` succeeds, over
the maps built from any record set. -/
theorem claim6_validity_iff (statuses : List Status) (c m : Str) :
    (is_valid_code (buildMaps statuses).1 c = true ↔
      ∃ v, message (buildMaps statuses).1 c = Except.ok v) ∧
    (is_valid_message (buildMaps statuses).2 m = true ↔
      ∃ v, code (buildMaps statuses).2 m = Except.ok v) := by
  constructor
  · unfold is_valid_code message
    rw [hmContainsKey_iff_get]
    constructor
    · rintro ⟨v, hv⟩
      exact ⟨v, by rw [hv]⟩
    · rintro ⟨v, hv⟩
      cases hget : hmGet (buildMaps statuses).1 (normalize_key c) with
      | none => rw [hget] at hv; simp at hv
      | some w => exact ⟨w, rfl⟩
  · unfold is_valid_message code
    rw [hmContainsKey_iff_get]
    constructor
    · rintro ⟨v, hv⟩
      exact ⟨v, by rw [hv]⟩
    · rintro ⟨v, hv⟩
      cases hget : hmGet (buildMaps statuses).2 (normalize_key m) with
      | none => rw [hget] at hv; simp at hv
      | some w => exact ⟨w, rfl⟩

/-- Claim C7: `normalize_key` (which trims first and then lowercases) computes
the same string as the spec's definition order (lowercase first, then trim),
because ASCII lowercasing neither creates nor destroys whitespace; as a Lean
function the model is pure and deterministic by construction. -/
theorem claim7_normalize_spec_order (s : Str) :
    normalize_key s = specNormalize s := by
  unfold normalize_key specNormalize
  rw [rustTrim_rustToLowercase]

/-- Claim C8: normalization is idempotent. -/
theorem claim8_normalize_idem (s : Str) :
    normalize_key (normalize_key s) = normalize_key s := normalize_key_idem s

/-- Claim C9: two strings that differ only in letter case and/or leading and
trailing whitespace normalize to the same key, so `code` and `message` resolve
them identically; in particular `code " ok "`, `code "OK"` and `code "ok"`
agree on every map. -/
theorem claim9_case_ws_insensitive (w1 w2 w3 w4 s t : Str)
    (hw1 : w1.all rustIsWhitespace = true) (hw2 : w2.all rustIsWhitespace = true)
    (hw3 : w3.all rustIsWhitespace = true) (hw4 : w4.all rustIsWhitespace = true)
    (hcase : rustToLowercase s = rustToLowercase t) :
    normalize_key (w1 ++ s ++ w2) = normalize_key (w3 ++ t ++ w4) ∧
    (∀ mtc : StrMap, code mtc (w1 ++ s ++ w2) = code mtc (w3 ++ t ++ w4)) ∧
    (∀ ctm : StrMap, message ctm (w1 ++ s ++ w2) = message ctm (w3 ++ t ++ w4)) ∧
    (∀ mtc : StrMap, code mtc (" ok ".data) = code mtc ("OK".data) ∧
      code mtc ("OK".data) = code mtc ("ok".data)) := by
  have hn : normalize_key (w1 ++ s ++ w2) = normalize_key (w3 ++ t ++ w4) := by
    rw [normalize_key_ws_wrap _ _ _ hw1 hw2, normalize_key_ws_wrap _ _ _ hw3 hw4]
    exact normalize_key_eq_of_lower_eq hcase
  exact ⟨hn, fun mtc => code_congr mtc hn, fun ctm => message_congr ctm hn,
    fun mtc => ⟨code_congr mtc (by decide), code_congr mtc (by decide)⟩⟩

/-- Witness for claim C9 at concrete strings: a whitespace-padded lowercase
string and the bare uppercase string normalize identically. -/
theorem claim9_witness :
    ([' '].all rustIsWhitespace = true) ∧
    (([] : Str).all rustIsWhitespace = true) ∧
    rustToLowercase ("ok".data) = rustToLowercase ("OK".data) ∧
    normalize_key ([' '] ++ "ok".data ++ [' ']) =
      normalize_key ([] ++ "OK".data ++ []) :=
  ⟨by decide, by decide, by decide,
   (claim9_case_ws_insensitive [' '] [' '] [] [] ("ok".data) ("OK".data)
     (by decide) (by decide) (by decide) (by decide) (by decide)).1⟩

/-- Claim C10: every key stored in either built map is a fixed point of
normalization, and consequently querying with an already-normalized string
gives the same result as querying with the original string. -/
theorem claim10_keys_normalized (statuses : List Status) (k : Str) :
    ((k ∈ hmKeys (buildMaps statuses).1 ∨ k ∈ hmKeys (buildMaps statuses).2) →
      normalize_key k = k) ∧
    (∀ s : Str,
      message (buildMaps statuses).1 (normalize_key s) =
        message (buildMaps statuses).1 s ∧
      code (buildMaps statuses).2 (normalize_key s) =
        code (buildMaps statuses).2 s) := by
  obtain ⟨h1, h2⟩ := buildMaps_keys_fixed statuses [] []
    (by intro k2 hk2; cases hk2) (by intro k2 hk2; cases hk2)
  constructor
  · intro hk
    rcases hk with hk | hk
    · exact h1 k hk
    · exact h2 k hk
  · intro s
    exact ⟨message_congr _ (normalize_key_idem s),
      code_congr _ (normalize_key_idem s)⟩

/-- Witness for claim C10 at a concrete record set and key. -/
theorem claim10_witness :
    ("200".data ∈ hmKeys (buildMaps [Status.mk ("200".data) ("OK".data)]).1 ∨
      "200".data ∈ hmKeys (buildMaps [Status.mk ("200".data) ("OK".data)]).2) ∧
    normalize_key ("200".data) = "200".data :=
  ⟨Or.inl (by decide),
   (claim10_keys_normalized [Status.mk ("200".data) ("OK".data)]
     ("200".data)).1 (Or.inl (by decide))⟩

end Statuses
